import Mathlib

/-
  Verification of the Componentize registry (src/componentize.js).

  The JS module keeps two module-level tables: `_registeredComponents`
  (component definitions: name, cssClass, constructor) and
  `_createdComponents` (live instances).  Per-element bookkeeping lives in
  the DOM: the attribute `data-upgraded-components` holds a comma-joined
  list of component names, and each instance is stored on its element
  under a property keyed by the component name.

  Shallow embedding conventions:
  - DOM elements are identified by a `Nat` id; the document is an
    association list from ids to element states (`classList`, the
    `data-upgraded-components` attribute, and the set of instance-property
    keys present on the element).
  - JS strings are Lean `String`s; `split(',')`, `join(',')` and the
    substring test `indexOf(x) !== -1` are implemented on the character
    lists below.
  - Operations that can throw a JS `TypeError` (property access on
    `null`/`undefined`, calling a missing method) return `Option`/a result
    type, `none` standing for the thrown exception.
  - Constructors of components are opaque: an instance is identified by
    its element id and its originating definition.
-/

namespace Componentize

/-! ## JS string primitives: split / join on a comma, substring search -/

/-- Character-list version of `needle` being a prefix of `hay`. -/
def seqStarts : List Char → List Char → Bool
  | [], _ => true
  | _ :: _, [] => false
  | a :: as, b :: bs => a = b && seqStarts as bs

/-- Character-list version of JS `hay.indexOf(needle) !== -1`:
`needle` occurs contiguously inside `hay`. -/
def containsSeq (needle : List Char) : List Char → Bool
  | [] => needle.isEmpty
  | b :: bs => seqStarts needle (b :: bs) || containsSeq needle bs

/-- JS `hay.indexOf(needle) !== -1` on strings. -/
def substrS (needle hay : String) : Bool :=
  containsSeq needle.toList hay.toList

/-- Character-list version of JS `s.split(',')`.  Note `''.split(',')`
is `['']`, so the empty list of characters maps to `[[]]`. -/
def splitChars : List Char → List (List Char)
  | [] => [[]]
  | c :: rest =>
    match splitChars rest with
    | [] => [[]]
    | g :: gs => if c = ',' then [] :: g :: gs else (c :: g) :: gs

/-- Character-list version of JS `xs.join(',')`. -/
def joinChars : List (List Char) → List Char
  | [] => []
  | [g] => g
  | g :: g2 :: gs => g ++ ',' :: joinChars (g2 :: gs)

/-- JS `s.split(',')` on strings. -/
def jsSplit (s : String) : List String :=
  (splitChars s.toList).map String.mk

/-- JS `xs.join(',')` on strings. -/
def jsJoin (xs : List String) : String :=
  String.mk (joinChars (xs.map String.toList))

/-- Numeric value of a run of decimal digits. -/
def digitsToNat (l : List Char) : Nat :=
  l.foldl (fun a c => a * 10 + (c.toNat - 48)) 0

/-- The ES whitespace set stripped by `ToNumber` on strings: TAB, LF,
VT, FF, CR, SP, NBSP, the Unicode space separators, LS, PS, NNBSP,
MMSP, ideographic space, and ZWNBSP. -/
def isJsWs (c : Char) : Bool :=
  let n := c.toNat
  n = 0x9 ∨ n = 0xA ∨ n = 0xB ∨ n = 0xC ∨ n = 0xD ∨ n = 0x20 ∨ n = 0xA0 ∨
  n = 0x1680 ∨ (0x2000 ≤ n ∧ n ≤ 0x200A) ∨ n = 0x2028 ∨ n = 0x2029 ∨
  n = 0x202F ∨ n = 0x205F ∨ n = 0x3000 ∨ n = 0xFEFF

/-- Strip leading and trailing JS whitespace. -/
def trimWs (l : List Char) : List Char :=
  ((l.dropWhile isJsWs).reverse.dropWhile isJsWs).reverse

/-- Digit value of a character in bases up to 16. -/
def charDigitVal (c : Char) : Option Nat :=
  if '0' ≤ c ∧ c ≤ '9' then some (c.toNat - 48)
  else if 'a' ≤ c ∧ c ≤ 'f' then some (c.toNat - 87)
  else if 'A' ≤ c ∧ c ≤ 'F' then some (c.toNat - 55)
  else none

/-- Value of a digit run in the given base; `none` on an invalid digit. -/
def radixValGo (base : Nat) (acc : Nat) : List Char → Option Nat
  | [] => some acc
  | c :: rest =>
    match charDigitVal c with
    | some d => if d < base then radixValGo base (acc * base + d) rest else none
    | none => none

/-- Value of a non-empty digit run in the given base. -/
def radixVal (base : Nat) (l : List Char) : Option Nat :=
  if l = [] then none else radixValGo base 0 l

/-- The result of JS `ToNumber` on a string, with the finite values kept
exact: `decVal neg m sc` stands for the value `(-1)^neg * m * 10^sc`. -/
inductive JsNumber where
  | nan
  | posInf
  | negInf
  | decVal (neg : Bool) (mantissa : Nat) (scale : Int)
deriving DecidableEq

/-- `ExponentPart` of the string-numeric grammar, which must consume the
whole remainder: empty means exponent `0`; otherwise `e`/`E`, an optional
sign, and a non-empty decimal digit run. -/
def parseExpPart : List Char → Option Int
  | [] => some 0
  | c :: rest =>
    if c = 'e' ∨ c = 'E' then
      match rest with
      | '+' :: ds => (radixVal 10 ds).map Int.ofNat
      | '-' :: ds => (radixVal 10 ds).map (fun n => -(n : Int))
      | ds => (radixVal 10 ds).map Int.ofNat
    else none

/-- `StrUnsignedDecimalLiteral` without the `Infinity` case:
`DecimalDigits [. [DecimalDigits]] [ExponentPart]` or
`. DecimalDigits [ExponentPart]`, consuming the whole input.  Returns
the exact value as (mantissa, decimal scale). -/
def parseUnsignedDec (l : List Char) : Option (Nat × Int) :=
  let intPart := l.takeWhile Char.isDigit
  let rest1 := l.dropWhile Char.isDigit
  match rest1 with
  | '.' :: rest2 =>
    let frac := rest2.takeWhile Char.isDigit
    let rest3 := rest2.dropWhile Char.isDigit
    if intPart = [] ∧ frac = [] then none
    else
      match parseExpPart rest3 with
      | some e => some (digitsToNat (intPart ++ frac), e - (frac.length : Int))
      | none => none
  | _ =>
    if intPart = [] then none
    else
      match parseExpPart rest1 with
      | some e => some (digitsToNat intPart, e)
      | none => none

/-- A signed `StrUnsignedDecimalLiteral`: `Infinity` or a decimal. -/
def jsStrUnsigned (neg : Bool) (l : List Char) : JsNumber :=
  if l = ['I', 'n', 'f', 'i', 'n', 'i', 't', 'y'] then
    if neg then JsNumber.negInf else JsNumber.posInf
  else
    match parseUnsignedDec l with
    | some (m, sc) => JsNumber.decVal neg m sc
    | none => JsNumber.nan

/-- `NonDecimalIntegerLiteral`: `0x`/`0X`, `0o`/`0O`, `0b`/`0B` followed
by a non-empty digit run of the base (no sign allowed). -/
def jsNonDecimal (l : List Char) : Option JsNumber :=
  match l with
  | '0' :: c :: ds =>
    if c = 'x' ∨ c = 'X' then (radixVal 16 ds).map (fun v => JsNumber.decVal false v 0)
    else if c = 'o' ∨ c = 'O' then (radixVal 8 ds).map (fun v => JsNumber.decVal false v 0)
    else if c = 'b' ∨ c = 'B' then (radixVal 2 ds).map (fun v => JsNumber.decVal false v 0)
    else none
  | _ => none

/-- JS `ToNumber` on a string, per the `StringNumericLiteral` grammar:
trim whitespace; empty is `0`; an optional sign admits `Infinity` or a
decimal literal with fraction and exponent; without a sign a hex, octal
or binary integer literal is also admitted; anything else is `NaN`.
Finite values are kept exact rather than rounded to an IEEE double. -/
def jsToNumber (s : String) : JsNumber :=
  match trimWs s.toList with
  | [] => JsNumber.decVal false 0 0
  | '+' :: r => jsStrUnsigned false r
  | '-' :: r => jsStrUnsigned true r
  | l =>
    match jsNonDecimal l with
    | some v => v
    | none => jsStrUnsigned false l

/-- Comparison of a `ToNumber` result with 2: false for `NaN`, and the
exact value otherwise. -/
def jsNumberLtTwo : JsNumber → Bool
  | JsNumber.nan => false
  | JsNumber.posInf => false
  | JsNumber.negInf => true
  | JsNumber.decVal neg m sc =>
    if neg then true
    else if 0 ≤ sc then decide (m * 10 ^ sc.toNat < 2)
    else decide (m < 2 * 10 ^ (-sc).toNat)

/-- JS `s.split(',') < 2`.  The array is coerced to a primitive via
`toString`, which re-joins the pieces with commas and yields `s` back;
the comparison of a string with a number goes through `ToNumber`, and a
comparison involving `NaN` is false.  The model compares the exact value
of the literal where JS first rounds it to the nearest IEEE double;
rounding to nearest is monotone, so whenever the exact value is at least
2 (every `false` case below that is not `NaN`) the rounded value is at
least 2 as well — the two semantics can differ only on literals lying
within half an ulp below 2, where this model says true and JS says
false, a side no theorem below relies on. -/
def jsNumLt2 (s : String) : Bool :=
  jsNumberLtTwo (jsToNumber s)

/-! ## Data model -/

/-- A registered component definition (`ComponentConfig` in the source).
The constructor function is opaque and identified by `ctorId`. -/
structure ComponentConfig where
  name : String
  cssClass : String
  ctorId : Nat
deriving DecidableEq

/-- The state of one DOM element: its CSS classes, the
`data-upgraded-components` attribute (`none` when the attribute is
absent), and the set of instance-property keys currently present on it. -/
structure Elem where
  classList : List String
  attrUpgraded : Option String
  props : List String
deriving DecidableEq

/-- A live component instance: the element it was constructed on and the
definition it came from (`instance.element` and
`instance._ComponentConfig` in the source). -/
structure Inst where
  elemId : Nat
  config : ComponentConfig
deriving DecidableEq

/-- Whole-module state: `_registeredComponents`, the document, and
`_createdComponents`. -/
structure St where
  regs : List ComponentConfig
  elems : List (Nat × Elem)
  created : List Inst
deriving DecidableEq

/-- First binding of an id in the document. -/
def lookupE : List (Nat × Elem) → Nat → Option Elem
  | [], _ => none
  | (j, e) :: rest, i => if j = i then some e else lookupE rest i

/-- Replace the first binding of an id in the document (no-op when the id
is unbound; the operations only ever update elements they looked up). -/
def setE : List (Nat × Elem) → Nat → Elem → List (Nat × Elem)
  | [], _, _ => []
  | (j, e) :: rest, i, e2 => if j = i then (j, e2) :: rest else (j, e) :: setE rest i e2

/-- Dereference a DOM element id. -/
def getEl (s : St) (i : Nat) : Option Elem :=
  lookupE s.elems i

/-- Update a DOM element in place. -/
def setEl (s : St) (i : Nat) (e : Elem) : St :=
  { s with elems := setE s.elems i e }

/-- Names of the created instances living on element `i`, in instance
table order. -/
def namesOf : List Inst → Nat → List String
  | [], _ => []
  | c :: rest, i =>
    if c.elemId = i then c.config.name :: namesOf rest i else namesOf rest i

/-- JS `element[name] = instance` seen on the key set: a present key is
overwritten, a new key is appended. -/
def insertProp (props : List String) (n : String) : List String :=
  if props.contains n then props else props ++ [n]

/-- One pass of the inner loop of `_getComponentList`: walk the instance
table and append the name of every instance of element `i` that is not in
the accumulator yet. -/
def gclInner : List Inst → Nat → List String → List String
  | [], _, acc => acc
  | c :: rest, i, acc =>
    if c.elemId = i ∧ ¬ acc.contains c.config.name
    then gclInner rest i (acc ++ [c.config.name])
    else gclInner rest i acc

/-- `_getComponentList`: the source runs the inner table scan once per
CSS class of the element (the loop variable is unused inside), starting
from an empty list. -/
def getComponentList (created : List Inst) (i : Nat) (e : Elem) : List String :=
  e.classList.foldl (fun acc _ => gclInner created i acc) []

/-- `_isUpgradedElement`: `!upgradeds` is true for an absent attribute
and for the empty string; otherwise the test is
`upgradeds.indexOf(componentName) !== -1`, a substring match. -/
def isUpgradedElement (e : Elem) (componentName : String) : Bool :=
  match e.attrUpgraded with
  | none => false
  | some upgradeds => if upgradeds = "" then false else substrS componentName upgradeds

/-- Remove the first instance of the table whose element and definition
name both match (`splice(i, 1)` guarded by `break`). -/
def removeFirstInst : List Inst → Nat → String → List Inst
  | [], _, _ => []
  | c :: rest, i, n =>
    if c.elemId = i ∧ c.config.name = n then rest else c :: removeFirstInst rest i n

/-- `_upgradeElementInternal`.  Guard on the element carrying the class
(the source logs a warning and returns), guard on `_isUpgradedElement`,
then: build the component list, construct the instance, store it under
`element[name]`, write the joined list to the attribute, and push the
instance.  A dangling element id is a modelling artifact treated as a
no-op (callers always pass elements of the document). -/
def upgradeElementInternal (s : St) (i : Nat) (componentConfig : ComponentConfig) : St :=
  match getEl s i with
  | none => s
  | some element =>
    if ¬ element.classList.contains componentConfig.cssClass then s
    else if isUpgradedElement element componentConfig.name then s
    else
      let componentList := getComponentList s.created i element ++ [componentConfig.name]
      let element2 : Elem :=
        { element with
            props := insertProp element.props componentConfig.name,
            attrUpgraded := some (jsJoin componentList) }
      { s with
          elems := setE s.elems i element2,
          created := s.created ++ [Inst.mk i componentConfig] }

/-- `_getRegisteredByClass`: first registration with the given class. -/
def getRegisteredByClass : List ComponentConfig → String → Option ComponentConfig
  | [], _ => none
  | r :: rest, cssClass =>
    if r.cssClass = cssClass then some r else getRegisteredByClass rest cssClass

/-- `_downgradeElementInternal`.  The attribute is read and split
unconditionally: when the attribute is absent, `getAttribute` returns
`null` and `null.split(',')` throws a `TypeError`, modelled as `none`.
Otherwise: a missing name is a no-op; a present name is spliced out of
the list (first occurrence), the joined list is written back, the first
matching instance is removed from the table, and `delete element[name]`
drops the property. -/
def downgradeElementInternal (s : St) (i : Nat) (componentName : String) : Option St :=
  match getEl s i with
  | none => some s
  | some element =>
    match element.attrUpgraded with
    | none => none
    | some componentsAsString =>
      let componentList := jsSplit componentsAsString
      if componentName ∈ componentList then
        let element2 : Elem :=
          { element with
              attrUpgraded := some (jsJoin (componentList.erase componentName)),
              props := element.props.erase componentName }
        some { s with
                 elems := setE s.elems i element2,
                 created := removeFirstInst s.created i componentName }
      else some s

/-! ## Registration -/

/-- A JS value sitting in a property of the config object. -/
inductive JsProp where
  | fnProp (id : Nat)
  | strProp (s : String)
  | numProp (n : Int)
  | nullProp
  | undefProp
deriving DecidableEq

/-- `typeof v === 'function'`. -/
def isFunctionProp : JsProp → Bool
  | JsProp.fnProp _ => true
  | _ => false

/-- The argument object of `register`, by its *own* properties.  A field
that is `none` is not present on the object itself. -/
structure RawConfig where
  ctorProp : Option JsProp
  nameProp : Option JsProp
  cssClassProp : Option JsProp
deriving DecidableEq

/-- JS property lookup `config['constructor']`: when the object has no
own `constructor` property the lookup finds the inherited
`Object.prototype.constructor`, which is a function. -/
def rawCtor (c : RawConfig) : JsProp :=
  c.ctorProp.getD (JsProp.fnProp 0)

/-- JS property lookup `config['name']` (nothing named `name` is
inherited from `Object.prototype`, so a missing field reads as
`undefined`). -/
def rawName (c : RawConfig) : JsProp :=
  c.nameProp.getD JsProp.undefProp

/-- JS property lookup `config['cssClass']`. -/
def rawCssClass (c : RawConfig) : JsProp :=
  c.cssClassProp.getD JsProp.undefProp

/-- The argument passed to `register`. -/
inductive RegisterInput where
  | undefinedInput
  | primInput
  | nullInput
  | objInput (c : RawConfig)
deriving DecidableEq

/-- Outcome of `register`: success carries the new registration table;
the two thrown `Error`s of the source are `configError`
("Please, provide a valid data config for component.") and
`duplicateClassError` (naming the offending class); `typeError` is a
raw JS `TypeError` from property access on `null`. -/
inductive RegisterOutcome where
  | ok (regs : List ComponentConfig)
  | configError
  | duplicateClassError (cls : String)
  | typeError
deriving DecidableEq

/-- `_register`.  The validation chain is
`typeof config === 'undefined' || typeof config !== 'object' || ...`:
`undefined` and non-objects fail the first two tests; `typeof null`
*is* `'object'`, so a `null` argument reaches `config['constructor']`
and throws a `TypeError`.  Then the three field checks, the duplicate
scan (throwing from inside `forEach` propagates), and finally the push. -/
def register (regs : List ComponentConfig) (input : RegisterInput) : RegisterOutcome :=
  match input with
  | RegisterInput.undefinedInput => RegisterOutcome.configError
  | RegisterInput.primInput => RegisterOutcome.configError
  | RegisterInput.nullInput => RegisterOutcome.typeError
  | RegisterInput.objInput c =>
    if ¬ isFunctionProp (rawCtor c) then RegisterOutcome.configError
    else
      match rawName c with
      | JsProp.strProp n =>
        if n = "" then RegisterOutcome.configError
        else
          match rawCssClass c with
          | JsProp.strProp k =>
            if k = "" then RegisterOutcome.configError
            else if regs.any (fun r => r.cssClass = k) then
              RegisterOutcome.duplicateClassError k
            else
              match rawCtor c with
              | JsProp.fnProp f => RegisterOutcome.ok (regs ++ [ComponentConfig.mk n k f])
              | _ => RegisterOutcome.configError
          | _ => RegisterOutcome.configError
      | _ => RegisterOutcome.configError

/-- The registration table after a call to `register`: a throw leaves
the module table untouched (the push is the last statement). -/
def regsAfter (regs : List ComponentConfig) (input : RegisterInput) : List ComponentConfig :=
  match register regs input with
  | RegisterOutcome.ok regs2 => regs2
  | _ => regs

/-! ## Public element operations -/

/-- The argument of `upgradeElement` / `downgradeElement`: either a real
document element or one of the non-element values a caller might pass. -/
inductive DomRef where
  | el (i : Nat)
  | nullRef
  | undefRef
  | numRef (n : Int)
  | objRef
deriving DecidableEq

/-- The `else` branch of `_upgradeElement`: `cssClasses.forEach`, looking
every class of the element up in the live registration table and
upgrading each hit. -/
def upgradeClassListFold : St → Nat → List String → St
  | s, _, [] => s
  | s, i, cssClass :: rest =>
    upgradeClassListFold
      (match getRegisteredByClass s.regs cssClass with
       | some r => upgradeElementInternal s i r
       | none => s)
      i rest

/-- `_upgradeElement`.  The `instanceof HTMLElement` guard runs before
any property access, so non-elements are a silent no-op.  A non-empty
`optionalCssClass` restricts to its (first) registration; otherwise every
class of the element is tried.  An empty string is falsy in JS and takes
the unrestricted branch. -/
def upgradeElement (s : St) (element : DomRef) (optionalCssClass : Option String) : St :=
  match element with
  | DomRef.el i =>
    match getEl s i with
    | none => s
    | some e =>
      match optionalCssClass with
      | some css =>
        if css = "" then upgradeClassListFold s i e.classList
        else
          match getRegisteredByClass s.regs css with
          | some registeredComponent => upgradeElementInternal s i registeredComponent
          | none => s
      | none => upgradeClassListFold s i e.classList
  | _ => s

/-- The `optionalCssClass` branch of `_downgradeElement`: find the first
registration with that class (`for` with `break`) and downgrade that one
(element, name) pair; an unregistered class falls through and returns. -/
def downgradeByClassBranch (s : St) (i : Nat) (css : String) : Option St :=
  match getRegisteredByClass s.regs css with
  | some r => downgradeElementInternal s i r.name
  | none => some s

/-- Sequential `components.forEach(...)` of `_downgradeElement`; a throw
inside the callback propagates. -/
def downgradeSeq : St → Nat → List String → Option St
  | s, _, [] => some s
  | s, i, n :: rest =>
    match downgradeElementInternal s i n with
    | none => none
    | some s2 => downgradeSeq s2 i rest

/-- The unrestricted branch of `_downgradeElement`: return when the
attribute is not a string (absent) or when
`componentsAsString.split(',') < 2` holds under JS coercion; otherwise
downgrade every name in the split list. -/
def downgradeNoClassBranch (s : St) (i : Nat) (e : Elem) : Option St :=
  match e.attrUpgraded with
  | none => some s
  | some componentsAsString =>
    if jsNumLt2 componentsAsString then some s
    else downgradeSeq s i (jsSplit componentsAsString)

/-- `_downgradeElement`.  The very first statement is
`element.getAttribute('data-upgraded-components')`, *before* the
`instanceof HTMLElement` guard: a `null`, number, or plain-object
argument has no `getAttribute` method and the call throws a `TypeError`
(`none`).  For a real element the guard then passes and the two branches
follow the source. -/
def downgradeElement (s : St) (element : DomRef) (optionalCssClass : Option String) : Option St :=
  match element with
  | DomRef.el i =>
    match getEl s i with
    | none => some s
    | some e =>
      match optionalCssClass with
      | some css =>
        if css = "" then downgradeNoClassBranch s i e
        else downgradeByClassBranch s i css
      | none => downgradeNoClassBranch s i e
  | _ => none

/-- The loop body of `_downgradeAll`, run `createdComponentTotal` times:
each iteration reads `_createdComponents[0]` and downgrades its
(element, name) pair.  Reading `[0]` of an empty table would yield
`undefined` and the subsequent property access would throw (`none`). -/
def downgradeAllLoop : Nat → St → Option St
  | 0, s => some s
  | n + 1, s =>
    match s.created with
    | [] => none
    | c :: _ =>
      match downgradeElementInternal s c.elemId c.config.name with
      | none => none
      | some s2 => downgradeAllLoop n s2

/-- `_downgradeAll`: the iteration count is the table length recorded at
call start. -/
def downgradeAll (s : St) : Option St :=
  downgradeAllLoop s.created.length s

end Componentize

namespace Componentize

/-! ## Lemmas on the string primitives -/

theorem seqStarts_append (l r : List Char) : seqStarts l (l ++ r) = true := by
  induction l with
  | nil => rfl
  | cons a as ih => simp [seqStarts, ih]

theorem containsSeq_cons (n : List Char) (b : Char) (bs : List Char)
    (h : containsSeq n bs = true) : containsSeq n (b :: bs) = true := by
  simp [containsSeq, h]

theorem containsSeq_of_starts (n h : List Char) (hs : seqStarts n h = true) :
    containsSeq n h = true := by
  cases h with
  | nil =>
    cases n with
    | nil => rfl
    | cons a as => simp [seqStarts] at hs
  | cons b bs => simp [containsSeq, hs]

theorem containsSeq_append_right (n : List Char) (h t : List Char)
    (hc : containsSeq n t = true) : containsSeq n (h ++ t) = true := by
  induction h with
  | nil => simpa using hc
  | cons b bs ih => exact containsSeq_cons _ _ _ ih

theorem mem_join_containsSeq (n : List Char) (M : List (List Char)) (hm : n ∈ M) :
    containsSeq n (joinChars M) = true := by
  induction M with
  | nil => cases hm
  | cons g gs ih =>
    cases gs with
    | nil =>
      have hg : n = g := by simpa using hm
      subst hg
      exact containsSeq_of_starts _ _ (by simpa using seqStarts_append n [])
    | cons g2 gs2 =>
      rcases List.mem_cons.mp hm with h1 | h2
      · subst h1
        exact containsSeq_of_starts _ _ (seqStarts_append n _)
      · exact containsSeq_append_right _ _ _ (containsSeq_cons _ _ _ (ih h2))

theorem splitChars_ne_nil (l : List Char) : splitChars l ≠ [] := by
  cases l with
  | nil => simp [splitChars]
  | cons c rest =>
    simp only [splitChars]
    cases splitChars rest with
    | nil => simp
    | cons g gs => by_cases hc : c = ',' <;> simp [hc]

theorem joinChars_splitChars (l : List Char) : joinChars (splitChars l) = l := by
  induction l with
  | nil => rfl
  | cons c rest ih =>
    cases hs : splitChars rest with
    | nil => exact absurd hs (splitChars_ne_nil rest)
    | cons g gs =>
      rw [hs] at ih
      by_cases hc : c = ','
      · subst hc
        simp only [splitChars, hs, if_pos rfl, joinChars]
        simpa using ih
      · simp only [splitChars, hs, if_neg hc]
        cases gs with
        | nil => simpa [joinChars] using congrArg (fun t => c :: t) ih
        | cons g2 gs2 => simpa [joinChars] using congrArg (fun t => c :: t) ih

theorem splitChars_no_comma (g : List Char) (h : ',' ∉ g) : splitChars g = [g] := by
  induction g with
  | nil => rfl
  | cons c cs ih =>
    have hc : c ≠ ',' := fun he => h (he ▸ List.mem_cons_self c cs)
    have hcs : ',' ∉ cs := fun hm => h (List.mem_cons_of_mem c hm)
    simp [splitChars, ih hcs, hc]

theorem splitChars_append_comma (g t : List Char) (h : ',' ∉ g) :
    splitChars (g ++ ',' :: t) = g :: splitChars t := by
  induction g with
  | nil =>
    cases hs : splitChars t with
    | nil => exact absurd hs (splitChars_ne_nil t)
    | cons g0 gs0 => simp [splitChars, hs]
  | cons c cs ih =>
    have hc : c ≠ ',' := fun he => h (he ▸ List.mem_cons_self c cs)
    have hcs : ',' ∉ cs := fun hm => h (List.mem_cons_of_mem c hm)
    simp [splitChars, ih hcs, hc]

theorem splitChars_joinChars (M : List (List Char)) (hM : M ≠ [])
    (hc : ∀ g ∈ M, ',' ∉ g) : splitChars (joinChars M) = M := by
  induction M with
  | nil => exact absurd rfl hM
  | cons g gs ih =>
    cases gs with
    | nil => simpa [joinChars] using splitChars_no_comma g (hc g (List.mem_cons_self g []))
    | cons g2 gs2 =>
      have h1 : ',' ∉ g := hc g (List.mem_cons_self g _)
      have h2 : ∀ x ∈ g2 :: gs2, ',' ∉ x := fun x hx => hc x (List.mem_cons_of_mem g hx)
      simp only [joinChars]
      rw [splitChars_append_comma g _ h1, ih (by simp) h2]

theorem string_toList_mk (l : List Char) : (String.mk l).toList = l := rfl

theorem string_mk_toList (s : String) : String.mk s.toList = s := by
  cases s
  rfl

theorem string_eq_empty_iff (s : String) : s = "" ↔ s.toList = [] := by
  constructor
  · intro h
    subst h
    rfl
  · intro h
    have := congrArg String.mk h
    rwa [string_mk_toList] at this

theorem jsJoin_jsSplit (s : String) : jsJoin (jsSplit s) = s := by
  unfold jsJoin jsSplit
  rw [List.map_map]
  have : (String.toList ∘ String.mk) = id := by
    funext l
    rfl
  rw [this, List.map_id, joinChars_splitChars, string_mk_toList]

theorem jsSplit_jsJoin (M : List String) (hM : M ≠ [])
    (hc : ∀ g ∈ M, ',' ∉ g.toList) : jsSplit (jsJoin M) = M := by
  unfold jsJoin jsSplit
  rw [string_toList_mk]
  rw [splitChars_joinChars (M.map String.toList)
      (by simpa using hM)
      (by intro g hg
          rcases List.mem_map.mp hg with ⟨x, hx, he⟩
          exact he ▸ hc x hx)]
  rw [List.map_map]
  have : (String.mk ∘ String.toList) = id := by
    funext x
    exact string_mk_toList x
  rw [this, List.map_id]

theorem jsJoin_singleton (x : String) : jsJoin [x] = x := by
  unfold jsJoin
  simp [joinChars, string_mk_toList]

theorem jsSplit_no_comma (s : String) (h : ',' ∉ s.toList) : jsSplit s = [s] := by
  unfold jsSplit
  rw [splitChars_no_comma s.toList h]
  simp [string_mk_toList]

theorem substrS_of_mem (n : String) (M : List String) (h : n ∈ M) :
    substrS n (jsJoin M) = true := by
  unfold substrS jsJoin
  rw [string_toList_mk]
  exact mem_join_containsSeq n.toList (M.map String.toList) (List.mem_map_of_mem _ h)

theorem jsJoin_ne_empty_of_mem (n : String) (M : List String) (h : n ∈ M)
    (hn : n ≠ "") : jsJoin M ≠ "" := by
  intro he
  have hs := substrS_of_mem n M h
  rw [he] at hs
  unfold substrS at hs
  have : containsSeq n.toList [] = true := hs
  unfold containsSeq at this
  have hnil : n.toList = [] := by simpa [List.isEmpty_iff] using this
  exact hn ((string_eq_empty_iff n).mpr hnil)

end Componentize

namespace Componentize

/-! ## Lemmas on the document association list -/

theorem lookupE_mem (l : List (Nat × Elem)) (i : Nat) (e : Elem)
    (h : lookupE l i = some e) : (i, e) ∈ l := by
  induction l with
  | nil => simp [lookupE] at h
  | cons p rest ih =>
    obtain ⟨j, e0⟩ := p
    by_cases hj : j = i
    · subst hj
      simp [lookupE] at h
      simp [h]
    · simp [lookupE, hj] at h
      exact List.mem_cons_of_mem _ (ih h)

theorem mem_lookupE (l : List (Nat × Elem)) (i : Nat) (e : Elem)
    (hnd : (l.map Prod.fst).Nodup) (h : (i, e) ∈ l) : lookupE l i = some e := by
  induction l with
  | nil => cases h
  | cons p rest ih =>
    obtain ⟨j, e0⟩ := p
    rw [List.map_cons, List.nodup_cons] at hnd
    rcases List.mem_cons.mp h with h1 | h2
    · rw [Prod.mk.injEq] at h1
      simp [lookupE, h1.1, h1.2]
    · have hj : j ≠ i := by
        intro hji
        subst hji
        exact hnd.1 (by simpa using List.mem_map_of_mem Prod.fst h2)
      simp [lookupE, hj, ih hnd.2 h2]

theorem map_fst_setE (l : List (Nat × Elem)) (i : Nat) (e2 : Elem) :
    (setE l i e2).map Prod.fst = l.map Prod.fst := by
  induction l with
  | nil => rfl
  | cons p rest ih =>
    obtain ⟨j, e0⟩ := p
    by_cases hj : j = i <;> simp [setE, hj, ih]

theorem lookupE_setE_self (l : List (Nat × Elem)) (i : Nat) (e2 : Elem) :
    lookupE (setE l i e2) i = (lookupE l i).map (fun _ => e2) := by
  induction l with
  | nil => rfl
  | cons p rest ih =>
    obtain ⟨j, e0⟩ := p
    by_cases hj : j = i <;> simp [setE, lookupE, hj, ih]

theorem lookupE_setE_ne (l : List (Nat × Elem)) (i j : Nat) (e2 : Elem)
    (h : j ≠ i) : lookupE (setE l i e2) j = lookupE l j := by
  induction l with
  | nil => rfl
  | cons p rest ih =>
    obtain ⟨k, e0⟩ := p
    by_cases hk : k = i
    · subst hk
      have hkj : k ≠ j := fun he => h he.symm
      simp [setE, lookupE, hkj]
    · simp [setE, lookupE, hk, ih]

theorem getEl_setEl_self (s : St) (i : Nat) (e2 : Elem) :
    getEl (setEl s i e2) i = (getEl s i).map (fun _ => e2) :=
  lookupE_setE_self s.elems i e2

theorem getEl_setEl_ne (s : St) (i j : Nat) (e2 : Elem) (h : j ≠ i) :
    getEl (setEl s i e2) j = getEl s j :=
  lookupE_setE_ne s.elems i j e2 h

/-! ## Lemmas on `namesOf`, `gclInner`, `getComponentList` -/

theorem namesOf_append (a b : List Inst) (i : Nat) :
    namesOf (a ++ b) i = namesOf a i ++ namesOf b i := by
  induction a with
  | nil => rfl
  | cons c rest ih => by_cases hc : c.elemId = i <;> simp [namesOf, hc, ih]

theorem namesOf_cons_of_eq (c : Inst) (rest : List Inst) (i : Nat) (h : c.elemId = i) :
    namesOf (c :: rest) i = c.config.name :: namesOf rest i := by
  simp [namesOf, h]

theorem namesOf_cons_ne (c : Inst) (rest : List Inst) (i : Nat) (h : c.elemId ≠ i) :
    namesOf (c :: rest) i = namesOf rest i := by
  simp [namesOf, h]

theorem mem_namesOf (created : List Inst) (i : Nat) (n : String)
    (h : n ∈ namesOf created i) :
    ∃ c ∈ created, c.elemId = i ∧ c.config.name = n := by
  induction created with
  | nil => cases h
  | cons c rest ih =>
    by_cases hc : c.elemId = i
    · rw [namesOf_cons_of_eq c rest i hc] at h
      rcases List.mem_cons.mp h with h1 | h2
      · exact ⟨c, List.mem_cons_self c rest, hc, h1.symm⟩
      · obtain ⟨c2, hc2, he, hn⟩ := ih h2
        exact ⟨c2, List.mem_cons_of_mem c hc2, he, hn⟩
    · rw [namesOf_cons_ne c rest i hc] at h
      obtain ⟨c2, hc2, he, hn⟩ := ih h
      exact ⟨c2, List.mem_cons_of_mem c hc2, he, hn⟩

theorem namesOf_eq_nil (created : List Inst) (i : Nat)
    (h : ∀ c ∈ created, c.elemId ≠ i) : namesOf created i = [] := by
  induction created with
  | nil => rfl
  | cons c rest ih =>
    rw [namesOf_cons_ne c rest i (h c (List.mem_cons_self c rest))]
    exact ih fun c2 hc2 => h c2 (List.mem_cons_of_mem c hc2)

theorem gclInner_cons_add (c : Inst) (rest : List Inst) (i : Nat) (acc : List String)
    (h1 : c.elemId = i) (h2 : c.config.name ∉ acc) :
    gclInner (c :: rest) i acc = gclInner rest i (acc ++ [c.config.name]) := by
  have hcond : c.elemId = i ∧ ¬ acc.contains c.config.name :=
    ⟨h1, fun hc => h2 (List.elem_iff.mp hc)⟩
  simp only [gclInner, if_pos hcond]

theorem gclInner_cons_skip (c : Inst) (rest : List Inst) (i : Nat) (acc : List String)
    (h : ¬ (c.elemId = i ∧ ¬ acc.contains c.config.name)) :
    gclInner (c :: rest) i acc = gclInner rest i acc := by
  simp only [gclInner, if_neg h]

theorem gclInner_fixed (created : List Inst) (i : Nat) (acc : List String)
    (h : ∀ n ∈ namesOf created i, n ∈ acc) : gclInner created i acc = acc := by
  induction created generalizing acc with
  | nil => rfl
  | cons c rest ih =>
    by_cases hc : c.elemId = i
    · rw [namesOf_cons_of_eq c rest i hc] at h
      have hmem : c.config.name ∈ acc := h _ (List.mem_cons_self _ _)
      rw [gclInner_cons_skip c rest i acc (fun hand => hand.2 (List.elem_iff.mpr hmem))]
      exact ih acc fun n hn => h n (List.mem_cons_of_mem _ hn)
    · rw [gclInner_cons_skip c rest i acc (fun hand => hc hand.1)]
      rw [namesOf_cons_ne c rest i hc] at h
      exact ih acc h

theorem gclInner_fresh (created : List Inst) (i : Nat) (acc : List String)
    (hnd : (namesOf created i).Nodup)
    (hdisj : ∀ n ∈ acc, n ∉ namesOf created i) :
    gclInner created i acc = acc ++ namesOf created i := by
  induction created generalizing acc with
  | nil => simp [gclInner, namesOf]
  | cons c rest ih =>
    by_cases hc : c.elemId = i
    · have hcons := namesOf_cons_of_eq c rest i hc
      rw [hcons] at hnd hdisj
      have hnotacc : c.config.name ∉ acc :=
        fun hmem => hdisj _ hmem (List.mem_cons_self _ _)
      have hdnew : ∀ n ∈ acc ++ [c.config.name], n ∉ namesOf rest i := by
        intro n hn
        rcases List.mem_append.mp hn with hn1 | hn2
        · exact fun hm => hdisj n hn1 (List.mem_cons_of_mem _ hm)
        · have he : n = c.config.name := by simpa using hn2
          subst he
          exact (List.nodup_cons.mp hnd).1
      rw [gclInner_cons_add c rest i acc hc hnotacc,
          ih (acc ++ [c.config.name]) (List.Nodup.of_cons hnd) hdnew,
          hcons, List.append_assoc, List.singleton_append]
    · rw [gclInner_cons_skip c rest i acc (fun hand => hc hand.1)]
      rw [namesOf_cons_ne c rest i hc] at hnd hdisj ⊢
      exact ih acc hnd hdisj

theorem mem_gclInner (created : List Inst) (i : Nat) (acc : List String) (n : String)
    (h : n ∈ gclInner created i acc) : n ∈ acc ∨ n ∈ namesOf created i := by
  induction created generalizing acc with
  | nil => exact Or.inl h
  | cons c rest ih =>
    by_cases hc : c.elemId = i
    · have hcons := namesOf_cons_of_eq c rest i hc
      by_cases hacc : c.config.name ∈ acc
      · rw [gclInner_cons_skip c rest i acc
          (fun hand => hand.2 (List.elem_iff.mpr hacc))] at h
        rcases ih acc h with h1 | h1
        · exact Or.inl h1
        · exact Or.inr (by rw [hcons]; exact List.mem_cons_of_mem _ h1)
      · rw [gclInner_cons_add c rest i acc hc hacc] at h
        rcases ih _ h with h1 | h1
        · rcases List.mem_append.mp h1 with h2 | h2
          · exact Or.inl h2
          · have he : n = c.config.name := by simpa using h2
            exact Or.inr (by rw [hcons, he]; exact List.mem_cons_self _ _)
        · exact Or.inr (by rw [hcons]; exact List.mem_cons_of_mem _ h1)
    · rw [gclInner_cons_skip c rest i acc (fun hand => hc hand.1)] at h
      rw [namesOf_cons_ne c rest i hc]
      exact ih acc h

theorem foldl_gclInner_fixed (created : List Inst) (i : Nat) (cls : List String)
    (acc : List String) (h : ∀ n ∈ namesOf created i, n ∈ acc) :
    cls.foldl (fun a _ => gclInner created i a) acc = acc := by
  induction cls with
  | nil => rfl
  | cons x xs ih =>
    rw [List.foldl_cons, gclInner_fixed created i acc h]
    exact ih

theorem getComponentList_eq_namesOf (created : List Inst) (i : Nat) (e : Elem)
    (hcl : e.classList ≠ []) (hnd : (namesOf created i).Nodup) :
    getComponentList created i e = namesOf created i := by
  unfold getComponentList
  cases hc : e.classList with
  | nil => exact absurd hc hcl
  | cons cl cls =>
    rw [List.foldl_cons, gclInner_fresh created i [] hnd (by simp), List.nil_append]
    exact foldl_gclInner_fixed created i cls (namesOf created i) (fun n hn => hn)

theorem mem_foldl_gcl (created : List Inst) (i : Nat) (cls : List String)
    (acc : List String) (n : String)
    (h : n ∈ cls.foldl (fun a _ => gclInner created i a) acc) :
    n ∈ acc ∨ n ∈ namesOf created i := by
  induction cls generalizing acc with
  | nil => exact Or.inl h
  | cons x xs ih =>
    rw [List.foldl_cons] at h
    rcases ih _ h with h1 | h1
    · exact mem_gclInner created i acc n h1
    · exact Or.inr h1

theorem mem_getComponentList (created : List Inst) (i : Nat) (e : Elem)
    (n : String) (h : n ∈ getComponentList created i e) : n ∈ namesOf created i := by
  unfold getComponentList at h
  rcases mem_foldl_gcl created i e.classList [] n h with h1 | h1
  · cases h1
  · exact h1

/-! ## Lemmas on `removeFirstInst`, `insertProp`, `getRegisteredByClass` -/

theorem removeFirstInst_cons_match (c : Inst) (rest : List Inst) :
    removeFirstInst (c :: rest) c.elemId c.config.name = rest := by
  simp [removeFirstInst]

theorem removeFirstInst_cons_skip (c : Inst) (rest : List Inst) (i : Nat) (n : String)
    (h : ¬ (c.elemId = i ∧ c.config.name = n)) :
    removeFirstInst (c :: rest) i n = c :: removeFirstInst rest i n := by
  simp only [removeFirstInst, if_neg h]

theorem removeFirstInst_append_of_none (a b : List Inst) (i : Nat) (n : String)
    (h : ∀ c ∈ a, ¬ (c.elemId = i ∧ c.config.name = n)) :
    removeFirstInst (a ++ b) i n = a ++ removeFirstInst b i n := by
  induction a with
  | nil => rfl
  | cons c rest ih =>
    rw [List.cons_append,
        removeFirstInst_cons_skip c _ i n (h c (List.mem_cons_self c rest)),
        ih fun c2 hc2 => h c2 (List.mem_cons_of_mem c hc2),
        List.cons_append]

theorem insertProp_nodup (props : List String) (n : String) (h : props.Nodup) :
    (insertProp props n).Nodup := by
  unfold insertProp
  by_cases hm : n ∈ props
  · rw [if_pos (List.elem_iff.mpr hm)]
    exact h
  · rw [if_neg fun hc => hm (List.elem_iff.mp hc), List.nodup_append]
    refine ⟨h, List.nodup_singleton n, ?_⟩
    intro a ha hb
    rw [List.mem_singleton] at hb
    subst hb
    exact hm ha

theorem not_mem_erase_insertProp (props : List String) (n : String)
    (h : props.Nodup) : n ∉ (insertProp props n).erase n := by
  have hins : (insertProp props n).Nodup := insertProp_nodup props n h
  intro hmem
  rw [List.Nodup.mem_erase_iff hins] at hmem
  exact hmem.1 rfl

theorem getRegisteredByClass_eq_some (regs : List ComponentConfig) (css : String)
    (r : ComponentConfig) (h : getRegisteredByClass regs css = some r) :
    r ∈ regs ∧ r.cssClass = css := by
  induction regs with
  | nil => simp [getRegisteredByClass] at h
  | cons r0 rest ih =>
    by_cases hc : r0.cssClass = css
    · rw [show getRegisteredByClass (r0 :: rest) css = some r0 by
        simp [getRegisteredByClass, hc]] at h
      obtain rfl : r0 = r := by simpa using h
      exact ⟨List.mem_cons_self _ _, hc⟩
    · rw [show getRegisteredByClass (r0 :: rest) css = getRegisteredByClass rest css by
        simp [getRegisteredByClass, hc]] at h
      obtain ⟨h1, h2⟩ := ih h
      exact ⟨List.mem_cons_of_mem _ h1, h2⟩

end Componentize

namespace Componentize

/-! ## Characterizations of the operations under explicit guards -/

theorem upgradeElementInternal_run (s : St) (i : Nat) (cfg : ComponentConfig) (e : Elem)
    (he : getEl s i = some e)
    (hcl : e.classList.contains cfg.cssClass = true)
    (hup : isUpgradedElement e cfg.name = false) :
    upgradeElementInternal s i cfg =
      { s with
          elems := setE s.elems i
            { e with
                props := insertProp e.props cfg.name,
                attrUpgraded :=
                  some (jsJoin (getComponentList s.created i e ++ [cfg.name])) },
          created := s.created ++ [Inst.mk i cfg] } := by
  unfold upgradeElementInternal
  rw [show getEl s i = some e from he]
  simp only [hcl, hup]
  simp

theorem upgradeElementInternal_noop_upgraded (s : St) (i : Nat) (cfg : ComponentConfig)
    (e : Elem) (he : getEl s i = some e)
    (hup : isUpgradedElement e cfg.name = true) :
    upgradeElementInternal s i cfg = s := by
  unfold upgradeElementInternal
  rw [show getEl s i = some e from he]
  by_cases hcl : e.classList.contains cfg.cssClass = true <;> simp [hcl, hup]

theorem downgradeElementInternal_found (s : St) (i : Nat) (nm : String) (e : Elem)
    (str : String) (he : getEl s i = some e) (ha : e.attrUpgraded = some str)
    (hm : nm ∈ jsSplit str) :
    downgradeElementInternal s i nm =
      some { s with
               elems := setE s.elems i
                 { e with
                     attrUpgraded := some (jsJoin ((jsSplit str).erase nm)),
                     props := e.props.erase nm },
               created := removeFirstInst s.created i nm } := by
  unfold downgradeElementInternal
  rw [show getEl s i = some e from he]
  simp only [ha, hm]
  simp

theorem downgradeElementInternal_notfound (s : St) (i : Nat) (nm : String) (e : Elem)
    (str : String) (he : getEl s i = some e) (ha : e.attrUpgraded = some str)
    (hm : nm ∉ jsSplit str) :
    downgradeElementInternal s i nm = some s := by
  unfold downgradeElementInternal
  rw [show getEl s i = some e from he]
  simp only [ha, hm]
  simp

theorem downgradeElementInternal_noattr (s : St) (i : Nat) (nm : String) (e : Elem)
    (he : getEl s i = some e) (ha : e.attrUpgraded = none) :
    downgradeElementInternal s i nm = none := by
  unfold downgradeElementInternal
  rw [show getEl s i = some e from he]
  simp only [ha]

theorem not_mem_jsSplit_jsJoin (nm : String) (M : List String) (hn : nm ≠ "")
    (hc : ∀ g ∈ M, ',' ∉ g.toList) (hnm : nm ∉ M) :
    nm ∉ jsSplit (jsJoin M) := by
  cases M with
  | nil =>
    intro hmem
    have : nm = "" := by simpa [jsSplit, jsJoin, splitChars, joinChars] using hmem
    exact hn this
  | cons g gs =>
    rw [jsSplit_jsJoin (g :: gs) (by simp) hc]
    exact hnm

/-! ## C10: downgrading never removes the marker attribute -/

/-- C10: once an element carries the marker attribute, a per-pair
downgrade always leaves the attribute present, set to the comma-join of
the marker list with the first occurrence of the downgraded name removed
(the original string when the name is not listed, the empty string when
the last entry is removed). -/
theorem C10_attr_never_removed (s : St) (i : Nat) (e : Elem) (str : String)
    (nm : String) (he : getEl s i = some e) (ha : e.attrUpgraded = some str) :
    ∃ s2 e2, downgradeElementInternal s i nm = some s2 ∧ getEl s2 i = some e2 ∧
      e2.attrUpgraded = some (jsJoin ((jsSplit str).erase nm)) := by
  by_cases hm : nm ∈ jsSplit str
  · refine ⟨_,
      { e with
          attrUpgraded := some (jsJoin ((jsSplit str).erase nm)),
          props := e.props.erase nm },
      downgradeElementInternal_found s i nm e str he ha hm, ?_, rfl⟩
    show lookupE (setE s.elems i _) i = _
    rw [lookupE_setE_self, show lookupE s.elems i = some e from he]
    rfl
  · refine ⟨s, e, downgradeElementInternal_notfound s i nm e str he ha hm, he, ?_⟩
    rw [List.erase_of_not_mem hm, jsJoin_jsSplit, ha]

def w10St : St :=
  ⟨[⟨"A", "a", 1⟩], [(0, ⟨["a"], some "A", ["A"]⟩)], [⟨0, ⟨"A", "a", 1⟩⟩]⟩

/-- Witness for C10 at a concrete one-instance state. -/
theorem C10_attr_never_removed_witness :
    ∃ s2 e2, downgradeElementInternal w10St 0 "A" = some s2 ∧ getEl s2 0 = some e2 ∧
      e2.attrUpgraded = some (jsJoin ((jsSplit "A").erase "A")) :=
  C10_attr_never_removed w10St 0 ⟨["a"], some "A", ["A"]⟩ "A" "A" (by decide) (by decide)

/-! ## C4: downgrading a pair on an element with no marker attribute -/

def exSt4 : St := ⟨[⟨"A", "a", 1⟩], [(0, ⟨["a"], none, []⟩)], []⟩

/-- C4 (code bug): on an element whose marker attribute is absent, the
per-pair downgrade is not a silent no-op: `getAttribute` yields `null`
and `null.split(',')` throws a `TypeError` (`none`), both when the
internal routine is entered directly and when it is reached through
`downgradeElement` with a registered class. -/
theorem C4_absent_attribute_throws :
    downgradeElementInternal exSt4 0 "A" = none ∧
    downgradeElement exSt4 (DomRef.el 0) (some "a") = none := by decide

/-! ## C5: downgradeElement on a non-element input -/

def exSt5 : St := ⟨[⟨"A", "a", 1⟩], [(0, ⟨["a"], some "A", ["A"]⟩)], [⟨0, ⟨"A", "a", 1⟩⟩]⟩

/-- C5 (code bug): `downgradeElement` evaluates
`element.getAttribute(...)` before its `instanceof HTMLElement` guard, so
a `null`, a number, and a plain object all throw a `TypeError` (`none`)
instead of returning as a silent no-op. -/
theorem C5_non_element_downgrade_throws :
    downgradeElement exSt5 DomRef.nullRef none = none ∧
    downgradeElement exSt5 (DomRef.numRef 5) none = none ∧
    downgradeElement exSt5 DomRef.objRef none = none ∧
    downgradeElement exSt5 DomRef.undefRef none = none := by decide

/-! ## C7: register with a config object lacking its own constructor -/

def exCfg7 : RawConfig :=
  ⟨none, some (JsProp.strProp "MyComponent"), some (JsProp.strProp "my-component")⟩

/-- C7 (code bug): a config object with no own `constructor` field is
*accepted* by `register`: the property lookup finds the inherited
`Object.prototype.constructor`, which is a function, so the validation
passes and the definition is appended — the claim's required
`ConfigError` is not raised and the table grows. -/
theorem C7_missing_constructor_accepted :
    register [] (RegisterInput.objInput exCfg7) =
      RegisterOutcome.ok [⟨"MyComponent", "my-component", 0⟩] ∧
    (regsAfter [] (RegisterInput.objInput exCfg7)).length = 1 := by decide

/-! ## C3: duplicate cssClass registration -/

/-- C3: registering a well-formed definition whose `cssClass` is already
claimed fails with the duplicate-class error naming that class, and the
registration table is left unchanged. -/
theorem C3_duplicate_class_rejected (regs : List ComponentConfig) (c : RawConfig)
    (n k : String)
    (hf : isFunctionProp (rawCtor c) = true)
    (hn : rawName c = JsProp.strProp n) (hn2 : n ≠ "")
    (hk : rawCssClass c = JsProp.strProp k) (hk2 : k ≠ "")
    (hdup : ∃ r ∈ regs, r.cssClass = k) :
    register regs (RegisterInput.objInput c) = RegisterOutcome.duplicateClassError k ∧
    regsAfter regs (RegisterInput.objInput c) = regs := by
  have hany : regs.any (fun r => r.cssClass = k) = true := by
    rw [List.any_eq_true]
    obtain ⟨r, hr, hrk⟩ := hdup
    exact ⟨r, hr, by simp [hrk]⟩
  have hreg : register regs (RegisterInput.objInput c) =
      RegisterOutcome.duplicateClassError k := by
    simp only [register, hn, hk, hany, hf]
    simp [hn2, hk2]
  refine ⟨hreg, ?_⟩
  unfold regsAfter
  rw [hreg]

def w3Regs : List ComponentConfig := [⟨"A", "dup-class", 1⟩]

def w3Cfg : RawConfig :=
  ⟨some (JsProp.fnProp 7), some (JsProp.strProp "B"), some (JsProp.strProp "dup-class")⟩

/-- Witness for C3 at a concrete duplicate registration. -/
theorem C3_duplicate_class_rejected_witness :
    register w3Regs (RegisterInput.objInput w3Cfg) =
      RegisterOutcome.duplicateClassError "dup-class" ∧
    regsAfter w3Regs (RegisterInput.objInput w3Cfg) = w3Regs :=
  C3_duplicate_class_rejected w3Regs w3Cfg "B" "dup-class"
    (by decide) (by decide) (by decide) (by decide) (by decide)
    ⟨⟨"A", "dup-class", 1⟩, by decide, by decide⟩

end Componentize

namespace Componentize

/-! ## C6: downgradeElement without a class on a one-entry marker -/

def exSt6 : St := ⟨[⟨"A", "a", 1⟩], [(0, ⟨["a"], some "A", ["A"]⟩)], [⟨0, ⟨"A", "a", 1⟩⟩]⟩

def exSt6After : St := ⟨[⟨"A", "a", 1⟩], [(0, ⟨["a"], some "", []⟩)], []⟩

/-- C6 counterexample: on an element whose marker records exactly one
component name, `downgradeElement` without a class is *not* a no-op —
the guard compares the split array against the number 2, the array is
coerced to the string "A", whose numeric value is NaN, so the comparison
is false and the single component is downgraded:
the instance is removed and the marker attribute becomes empty. -/
theorem C6_single_entry_not_noop :
    downgradeElement exSt6 (DomRef.el 0) none = some exSt6After ∧
    exSt6.created.length = 1 ∧ exSt6After.created = [] ∧
    getEl exSt6 0 ≠ getEl exSt6After 0 := by decide

/-- C6 amended: the size guard of `downgradeElement` without a class
no-ops only when the marker string coerces to a number below 2 (for
instance the empty string); when the attribute holds a single
comma-free name whose coercion is not below 2 (any ordinary name is
NaN), that one recorded component is downgraded: the first matching
instance leaves the table, the marker becomes the empty string, and the
name's property is deleted. -/
theorem C6_one_name_downgrades (s : St) (i : Nat) (e : Elem) (nm : String)
    (he : getEl s i = some e) (ha : e.attrUpgraded = some nm)
    (hlt : jsNumLt2 nm = false) (hcomma : ',' ∉ nm.toList) :
    ∃ s2, downgradeElement s (DomRef.el i) none = some s2 ∧
      s2.created = removeFirstInst s.created i nm ∧
      ∃ e2, getEl s2 i = some e2 ∧ e2.attrUpgraded = some "" ∧
        e2.props = e.props.erase nm := by
  have hsplit : jsSplit nm = [nm] := jsSplit_no_comma nm hcomma
  have hmem : nm ∈ jsSplit nm := by
    rw [hsplit]
    exact List.mem_cons_self _ _
  have hfound := downgradeElementInternal_found s i nm e nm he ha hmem
  rw [hsplit, List.erase_cons_head] at hfound
  have hrun : downgradeElement s (DomRef.el i) none = downgradeSeq s i [nm] := by
    simp only [downgradeElement, he]
    show downgradeNoClassBranch s i e = _
    simp only [downgradeNoClassBranch, ha]
    rw [if_neg (by simp [hlt]), hsplit]
  rw [hrun]
  simp only [downgradeSeq, hfound]
  refine ⟨_, rfl, rfl,
    { e with attrUpgraded := some (jsJoin []), props := e.props.erase nm }, ?_, rfl, rfl⟩
  show lookupE (setE s.elems i _) i = _
  rw [lookupE_setE_self, show lookupE s.elems i = some e from he]
  rfl

/-- Witness for the amended C6 at a concrete one-component state. -/
theorem C6_one_name_downgrades_witness :
    ∃ s2, downgradeElement exSt6 (DomRef.el 0) none = some s2 ∧
      s2.created = removeFirstInst exSt6.created 0 "A" ∧
      ∃ e2, getEl s2 0 = some e2 ∧ e2.attrUpgraded = some "" ∧
        e2.props = (Elem.mk ["a"] (some "A") ["A"]).props.erase "A" :=
  C6_one_name_downgrades exSt6 0 ⟨["a"], some "A", ["A"]⟩ "A"
    (by decide) (by decide) (by decide) (by decide)

/-! ## C1: element-level upgrade is idempotent -/

/-- C1: for an element that carries the definition's class, is not yet
marked for the definition's name, and has no instance for the pair,
upgrading twice equals upgrading once, and after the first upgrade the
pair has exactly one instance in the table and the name occurs exactly
once in the split marker list. -/
theorem C1_upgrade_idempotent (s : St) (i : Nat) (e : Elem) (cfg : ComponentConfig)
    (he : getEl s i = some e)
    (hcl : e.classList.contains cfg.cssClass = true)
    (hup : isUpgradedElement e cfg.name = false)
    (hn : cfg.name ≠ "")
    (hcomma : ',' ∉ cfg.name.toList)
    (hcreated : ∀ c ∈ s.created, ',' ∉ c.config.name.toList)
    (hpair : ∀ c ∈ s.created, ¬ (c.elemId = i ∧ c.config.name = cfg.name)) :
    upgradeElementInternal (upgradeElementInternal s i cfg) i cfg =
      upgradeElementInternal s i cfg ∧
    (namesOf (upgradeElementInternal s i cfg).created i).count cfg.name = 1 ∧
    ∃ e1 str, getEl (upgradeElementInternal s i cfg) i = some e1 ∧
      e1.attrUpgraded = some str ∧ (jsSplit str).count cfg.name = 1 := by
  obtain ⟨L, hL⟩ : ∃ L, getComponentList s.created i e = L := ⟨_, rfl⟩
  have hrun := upgradeElementInternal_run s i cfg e he hcl hup
  rw [hL] at hrun
  have hLsub : ∀ x ∈ L, x ∈ namesOf s.created i :=
    fun x hx => mem_getComponentList s.created i e x (hL ▸ hx)
  have hnotnames : cfg.name ∉ namesOf s.created i := by
    intro hm
    obtain ⟨c, hc, h1, h2⟩ := mem_namesOf s.created i cfg.name hm
    exact hpair c hc ⟨h1, h2⟩
  have hnotL : cfg.name ∉ L := fun hm => hnotnames (hLsub _ hm)
  have hLcomma : ∀ g ∈ L ++ [cfg.name], ',' ∉ g.toList := by
    intro g hg
    rcases List.mem_append.mp hg with h1 | h2
    · obtain ⟨c, hc, _, h2⟩ := mem_namesOf s.created i g (hLsub g h1)
      exact h2 ▸ hcreated c hc
    · have hge : g = cfg.name := by simpa using h2
      exact hge ▸ hcomma
  have hsplit1 : jsSplit (jsJoin (L ++ [cfg.name])) = L ++ [cfg.name] :=
    jsSplit_jsJoin _ (by simp) hLcomma
  have he1 : getEl (upgradeElementInternal s i cfg) i =
      some { e with
               props := insertProp e.props cfg.name,
               attrUpgraded := some (jsJoin (L ++ [cfg.name])) } := by
    rw [hrun]
    show lookupE (setE s.elems i _) i = _
    rw [lookupE_setE_self, show lookupE s.elems i = some e from he]
    rfl
  have hupT : isUpgradedElement
      { e with
          props := insertProp e.props cfg.name,
          attrUpgraded := some (jsJoin (L ++ [cfg.name])) } cfg.name = true := by
    show (if jsJoin (L ++ [cfg.name]) = "" then false
          else substrS cfg.name (jsJoin (L ++ [cfg.name]))) = true
    rw [if_neg (jsJoin_ne_empty_of_mem cfg.name _ (by simp) hn)]
    exact substrS_of_mem cfg.name _ (by simp)
  refine ⟨upgradeElementInternal_noop_upgraded _ i cfg _ he1 hupT, ?_, ?_⟩
  · rw [hrun]
    show (namesOf (s.created ++ [Inst.mk i cfg]) i).count cfg.name = 1
    rw [namesOf_append, List.count_append, List.count_eq_zero.mpr hnotnames]
    simp [namesOf]
  · refine ⟨_, jsJoin (L ++ [cfg.name]), he1, rfl, ?_⟩
    rw [hsplit1, List.count_append, List.count_eq_zero.mpr hnotL]
    simp

def w1St : St := ⟨[⟨"A", "a", 1⟩], [(0, ⟨["a"], none, []⟩)], []⟩

/-- Witness for C1 at a fresh one-element document. -/
theorem C1_upgrade_idempotent_witness :
    upgradeElementInternal (upgradeElementInternal w1St 0 ⟨"A", "a", 1⟩) 0 ⟨"A", "a", 1⟩ =
      upgradeElementInternal w1St 0 ⟨"A", "a", 1⟩ ∧
    (namesOf (upgradeElementInternal w1St 0 ⟨"A", "a", 1⟩).created 0).count "A" = 1 ∧
    ∃ e1 str, getEl (upgradeElementInternal w1St 0 ⟨"A", "a", 1⟩) 0 = some e1 ∧
      e1.attrUpgraded = some str ∧ (jsSplit str).count "A" = 1 :=
  C1_upgrade_idempotent w1St 0 ⟨["a"], none, []⟩ ⟨"A", "a", 1⟩
    (by decide) (by decide) (by decide) (by decide) (by decide)
    (by decide) (by decide)

/-! ## C2: upgrade then downgrade restores the element -/

/-- C2: upgrading a fresh (element, definition) pair and then downgrading
that pair yields a state whose instance table equals the original one (so
no instance for the pair remains), whose element no longer has a property
under the definition's name, and whose marker list no longer contains the
name. -/
theorem C2_upgrade_downgrade_roundtrip (s : St) (i : Nat) (e : Elem)
    (cfg : ComponentConfig)
    (he : getEl s i = some e)
    (hcl : e.classList.contains cfg.cssClass = true)
    (hup : isUpgradedElement e cfg.name = false)
    (hn : cfg.name ≠ "")
    (hcomma : ',' ∉ cfg.name.toList)
    (hcreated : ∀ c ∈ s.created, ',' ∉ c.config.name.toList)
    (hpair : ∀ c ∈ s.created, ¬ (c.elemId = i ∧ c.config.name = cfg.name))
    (hprops : e.props.Nodup) :
    ∃ s2, downgradeElementInternal (upgradeElementInternal s i cfg) i cfg.name = some s2 ∧
      s2.created = s.created ∧
      ∃ e2, getEl s2 i = some e2 ∧ cfg.name ∉ e2.props ∧
        ∀ str, e2.attrUpgraded = some str → cfg.name ∉ jsSplit str := by
  obtain ⟨L, hL⟩ : ∃ L, getComponentList s.created i e = L := ⟨_, rfl⟩
  have hrun := upgradeElementInternal_run s i cfg e he hcl hup
  rw [hL] at hrun
  have hLsub : ∀ x ∈ L, x ∈ namesOf s.created i :=
    fun x hx => mem_getComponentList s.created i e x (hL ▸ hx)
  have hnotnames : cfg.name ∉ namesOf s.created i := by
    intro hm
    obtain ⟨c, hc, h1, h2⟩ := mem_namesOf s.created i cfg.name hm
    exact hpair c hc ⟨h1, h2⟩
  have hnotL : cfg.name ∉ L := fun hm => hnotnames (hLsub _ hm)
  have hLcommaOnly : ∀ g ∈ L, ',' ∉ g.toList := by
    intro g hg
    obtain ⟨c, hc, _, h2⟩ := mem_namesOf s.created i g (hLsub g hg)
    exact h2 ▸ hcreated c hc
  have hLcomma : ∀ g ∈ L ++ [cfg.name], ',' ∉ g.toList := by
    intro g hg
    rcases List.mem_append.mp hg with h1 | h2
    · exact hLcommaOnly g h1
    · have hge : g = cfg.name := by simpa using h2
      exact hge ▸ hcomma
  have hsplit1 : jsSplit (jsJoin (L ++ [cfg.name])) = L ++ [cfg.name] :=
    jsSplit_jsJoin _ (by simp) hLcomma
  have he1 : getEl (upgradeElementInternal s i cfg) i =
      some { e with
               props := insertProp e.props cfg.name,
               attrUpgraded := some (jsJoin (L ++ [cfg.name])) } := by
    rw [hrun]
    show lookupE (setE s.elems i _) i = _
    rw [lookupE_setE_self, show lookupE s.elems i = some e from he]
    rfl
  have hmem : cfg.name ∈ jsSplit (jsJoin (L ++ [cfg.name])) := by
    rw [hsplit1]
    simp
  have herase : (jsSplit (jsJoin (L ++ [cfg.name]))).erase cfg.name = L := by
    rw [hsplit1, List.erase_append_right _ hnotL, List.erase_cons_head, List.append_nil]
  have hfound := downgradeElementInternal_found (upgradeElementInternal s i cfg) i
    cfg.name _ (jsJoin (L ++ [cfg.name])) he1 rfl hmem
  refine ⟨_, hfound, ?_, ?_⟩
  · show removeFirstInst (upgradeElementInternal s i cfg).created i cfg.name = s.created
    rw [show (upgradeElementInternal s i cfg).created = s.created ++ [Inst.mk i cfg] by
      rw [hrun]]
    rw [removeFirstInst_append_of_none s.created _ i cfg.name hpair,
        removeFirstInst_cons_match ⟨i, cfg⟩ [], List.append_nil]
  · refine ⟨⟨e.classList,
        some (jsJoin ((jsSplit (jsJoin (L ++ [cfg.name]))).erase cfg.name)),
        (insertProp e.props cfg.name).erase cfg.name⟩, ?_, ?_, ?_⟩
    · show lookupE (setE (upgradeElementInternal s i cfg).elems i _) i = _
      rw [lookupE_setE_self,
          show lookupE (upgradeElementInternal s i cfg).elems i = some _ from he1]
      rfl
    · show cfg.name ∉ (insertProp e.props cfg.name).erase cfg.name
      exact not_mem_erase_insertProp e.props cfg.name hprops
    · intro str hstr
      have hstr2 : str = jsJoin ((jsSplit (jsJoin (L ++ [cfg.name]))).erase cfg.name) := by
        simpa using hstr.symm
      rw [hstr2, herase]
      exact not_mem_jsSplit_jsJoin cfg.name L hn hLcommaOnly hnotL

def w2St : St := ⟨[⟨"A", "a", 1⟩], [(0, ⟨["a"], none, []⟩)], []⟩

/-- Witness for C2 at a fresh one-element document. -/
theorem C2_upgrade_downgrade_roundtrip_witness :
    ∃ s2, downgradeElementInternal (upgradeElementInternal w2St 0 ⟨"A", "a", 1⟩) 0 "A" =
        some s2 ∧
      s2.created = w2St.created ∧
      ∃ e2, getEl s2 0 = some e2 ∧ "A" ∉ e2.props ∧
        ∀ str, e2.attrUpgraded = some str → "A" ∉ jsSplit str :=
  C2_upgrade_downgrade_roundtrip w2St 0 ⟨["a"], none, []⟩ ⟨"A", "a", 1⟩
    (by decide) (by decide) (by decide) (by decide) (by decide)
    (by decide) (by decide) (by decide)

end Componentize

namespace Componentize

/-! ## C8: an element with two registered classes -/

theorem substrS_self (n : String) : substrS n n = true := by
  unfold substrS
  exact containsSeq_of_starts _ _ (by simpa using seqStarts_append n.toList [])

theorem regs_upgradeElementInternal (s : St) (i : Nat) (cfg : ComponentConfig) :
    (upgradeElementInternal s i cfg).regs = s.regs := by
  unfold upgradeElementInternal
  split
  · rfl
  · split
    · rfl
    · split
      · rfl
      · rfl

theorem getComponentList_of_no_inst (created : List Inst) (i : Nat) (e : Elem)
    (h : ∀ c ∈ created, c.elemId ≠ i) : getComponentList created i e = [] := by
  have hnil : namesOf created i = [] := namesOf_eq_nil created i h
  unfold getComponentList
  exact foldl_gclInner_fixed created i e.classList []
    (by rw [hnil]; intro n hn; cases hn)

def exSt8 : St :=
  ⟨[⟨"AB", "ab", 1⟩, ⟨"A", "a", 2⟩], [(0, ⟨["ab", "a"], none, []⟩)], []⟩

/-- C8 counterexample: with registered names "AB" and "A" (one a substring
of the other) on one element whose class list puts "AB" first, the
unrestricted `upgradeElement` produces only ONE instance: after the first
upgrade the marker is "AB" and `_isUpgradedElement` finds "A" as a
substring of "AB", so the second definition is skipped; the claim's
promise of two instances and order-independence fails. -/
theorem C8_substring_counterexample :
    (upgradeElement exSt8 (DomRef.el 0) none).created.length = 1 ∧
    getEl (upgradeElement exSt8 (DomRef.el 0) none) 0 =
      some ⟨["ab", "a"], some "AB", ["AB"]⟩ ∧
    "A" ∉ jsSplit "AB" ∧
    (namesOf (upgradeElement exSt8 (DomRef.el 0) none).created 0).count "A" = 0 := by
  decide

/-- C8 amended: for two registered definitions on one element, *provided
neither name is a substring of the other*, the unrestricted
`upgradeElement` creates one instance per definition and both names end
up in the marker list.  The hypotheses are symmetric in the two
definitions, so the result holds for either processing order. -/
theorem C8_two_classes_amended (s : St) (i : Nat) (e : Elem) (c1 c2 : String)
    (r1 r2 : ComponentConfig)
    (he : getEl s i = some e)
    (hcl : e.classList = [c1, c2])
    (hr1 : getRegisteredByClass s.regs c1 = some r1)
    (hr2 : getRegisteredByClass s.regs c2 = some r2)
    (h12 : substrS r2.name r1.name = false)
    (h21 : substrS r1.name r2.name = false)
    (hn1 : r1.name ≠ "") (hn2 : r2.name ≠ "")
    (hc1 : ',' ∉ r1.name.toList) (hc2 : ',' ∉ r2.name.toList)
    (hfresh : ∀ c ∈ s.created, c.elemId ≠ i)
    (hattr : e.attrUpgraded = none) :
    namesOf (upgradeElement s (DomRef.el i) none).created i = [r1.name, r2.name] ∧
    ∃ et, getEl (upgradeElement s (DomRef.el i) none) i = some et ∧
      et.attrUpgraded = some (jsJoin [r1.name, r2.name]) ∧
      r1.name ∈ jsSplit (jsJoin [r1.name, r2.name]) ∧
      r2.name ∈ jsSplit (jsJoin [r1.name, r2.name]) := by
  obtain ⟨hr1mem, hr1css⟩ := getRegisteredByClass_eq_some s.regs c1 r1 hr1
  obtain ⟨hr2mem, hr2css⟩ := getRegisteredByClass_eq_some s.regs c2 r2 hr2
  -- first upgrade
  have hcontains1 : e.classList.contains r1.cssClass = true := by
    rw [hr1css, hcl]
    simp
  have hup1 : isUpgradedElement e r1.name = false := by
    unfold isUpgradedElement
    rw [hattr]
  have hgcl1 : getComponentList s.created i e = [] :=
    getComponentList_of_no_inst s.created i e hfresh
  have hrun1 := upgradeElementInternal_run s i r1 e he hcontains1 hup1
  rw [hgcl1, List.nil_append, jsJoin_singleton] at hrun1
  -- the state and element after the first upgrade
  have he1 : getEl (upgradeElementInternal s i r1) i =
      some { e with props := insertProp e.props r1.name,
                    attrUpgraded := some r1.name } := by
    rw [hrun1]
    show lookupE (setE s.elems i _) i = _
    rw [lookupE_setE_self, show lookupE s.elems i = some e from he]
    rfl
  have hnames1 : namesOf (upgradeElementInternal s i r1).created i = [r1.name] := by
    rw [hrun1]
    show namesOf (s.created ++ [Inst.mk i r1]) i = [r1.name]
    rw [namesOf_append, namesOf_eq_nil s.created i hfresh]
    simp [namesOf]
  -- second upgrade
  have hcontains2 :
      (Elem.mk e.classList (some r1.name) (insertProp e.props r1.name)).classList.contains
        r2.cssClass = true := by
    show e.classList.contains r2.cssClass = true
    rw [hr2css, hcl]
    simp
  have hup2 : isUpgradedElement
      { e with props := insertProp e.props r1.name,
               attrUpgraded := some r1.name } r2.name = false := by
    show (if r1.name = "" then false else substrS r2.name r1.name) = false
    rw [if_neg hn1]
    exact h12
  have hgcl2 : getComponentList (upgradeElementInternal s i r1).created i
      { e with props := insertProp e.props r1.name,
               attrUpgraded := some r1.name } = [r1.name] := by
    rw [getComponentList_eq_namesOf _ i _ (by show e.classList ≠ []; rw [hcl]; simp)
        (by rw [hnames1]; exact List.nodup_singleton _), hnames1]
  have hrun2 := upgradeElementInternal_run (upgradeElementInternal s i r1) i r2 _
    he1 hcontains2 hup2
  rw [hgcl2] at hrun2
  -- the whole call is the two-step fold
  have hfold : upgradeElement s (DomRef.el i) none =
      upgradeElementInternal (upgradeElementInternal s i r1) i r2 := by
    simp only [upgradeElement, he]
    rw [hcl]
    show upgradeClassListFold s i [c1, c2] = _
    simp only [upgradeClassListFold, hr1]
    rw [show (upgradeElementInternal s i r1).regs = s.regs from
      regs_upgradeElementInternal s i r1, hr2]
  rw [hfold, hrun2]
  have hjoin : jsJoin ([r1.name] ++ [r2.name]) = jsJoin [r1.name, r2.name] := rfl
  have hsplitJ : jsSplit (jsJoin [r1.name, r2.name]) = [r1.name, r2.name] := by
    refine jsSplit_jsJoin _ (by simp) ?_
    intro g hg
    rcases List.mem_cons.mp hg with h1 | h1
    · exact h1 ▸ hc1
    · have : g = r2.name := by simpa using h1
      exact this ▸ hc2
  refine ⟨?_, ?_⟩
  · show namesOf ((upgradeElementInternal s i r1).created ++ [Inst.mk i r2]) i = _
    rw [namesOf_append, hnames1]
    simp [namesOf]
  · refine ⟨⟨e.classList, some (jsJoin ([r1.name] ++ [r2.name])),
        insertProp (insertProp e.props r1.name) r2.name⟩, ?_, ?_, ?_, ?_⟩
    · show lookupE (setE (upgradeElementInternal s i r1).elems i _) i = _
      rw [lookupE_setE_self,
          show lookupE (upgradeElementInternal s i r1).elems i = some _ from he1]
      rfl
    · show some (jsJoin ([r1.name] ++ [r2.name])) = some (jsJoin [r1.name, r2.name])
      rw [hjoin]
    · rw [hsplitJ]
      simp
    · rw [hsplitJ]
      simp

def w8St : St :=
  ⟨[⟨"Foo", "f", 1⟩, ⟨"Bar", "b", 2⟩], [(0, ⟨["f", "b"], none, []⟩)], []⟩

/-- Witness for the amended C8 with two non-overlapping names. -/
theorem C8_two_classes_amended_witness :
    namesOf (upgradeElement w8St (DomRef.el 0) none).created 0 = ["Foo", "Bar"] ∧
    ∃ et, getEl (upgradeElement w8St (DomRef.el 0) none) 0 = some et ∧
      et.attrUpgraded = some (jsJoin ["Foo", "Bar"]) ∧
      "Foo" ∈ jsSplit (jsJoin ["Foo", "Bar"]) ∧
      "Bar" ∈ jsSplit (jsJoin ["Foo", "Bar"]) :=
  C8_two_classes_amended w8St 0 ⟨["f", "b"], none, []⟩ "f" "b"
    ⟨"Foo", "f", 1⟩ ⟨"Bar", "b", 2⟩
    (by decide) (by decide) (by decide) (by decide) (by decide) (by decide)
    (by decide) (by decide) (by decide) (by decide) (by decide) (by decide)

end Componentize

namespace Componentize

/-! ## C9: the coherence invariant and the bulk drain -/

/-- Per-element coherence: the marker attribute is absent only when the
element has no instances, otherwise it is exactly the comma-join of the
element's instance names (in table order); the per-element names are
pairwise distinct, and so are the element's property keys. -/
def elemOk (created : List Inst) (i : Nat) (e : Elem) : Prop :=
  ((e.attrUpgraded = none ∧ namesOf created i = []) ∨
    e.attrUpgraded = some (jsJoin (namesOf created i))) ∧
  (namesOf created i).Nodup ∧ e.props.Nodup

/-- The state invariant maintained by the upgrade operations: document
ids are unique, registered and instantiated component names are
non-empty and comma-free, every instance's element is in the document,
and every element is coherent. -/
def Coherent (s : St) : Prop :=
  (s.elems.map Prod.fst).Nodup ∧
  (∀ r ∈ s.regs, r.name ≠ "" ∧ ',' ∉ r.name.toList) ∧
  (∀ c ∈ s.created, c.config.name ≠ "" ∧ ',' ∉ c.config.name.toList ∧
    (getEl s c.elemId).isSome = true) ∧
  (∀ p ∈ s.elems, elemOk s.created p.1 p.2)

theorem elemOk_of_getEl (s : St) (i : Nat) (e : Elem) (h : Coherent s)
    (he : getEl s i = some e) : elemOk s.created i e :=
  h.2.2.2 (i, e) (lookupE_mem s.elems i e he)

theorem names_comma_free (s : St) (h : Coherent s) (i : Nat) :
    ∀ g ∈ namesOf s.created i, ',' ∉ g.toList := by
  intro g hg
  obtain ⟨c, hcmem, _, hname⟩ := mem_namesOf s.created i g hg
  exact hname ▸ (h.2.2.1 c hcmem).2.1

theorem names_ne_empty (s : St) (h : Coherent s) (i : Nat) :
    ∀ g ∈ namesOf s.created i, g ≠ "" := by
  intro g hg
  obtain ⟨c, hcmem, _, hname⟩ := mem_namesOf s.created i g hg
  exact hname ▸ (h.2.2.1 c hcmem).1

/-- Draining step: for a coherent state whose instance table starts with
`c`, downgrading `c`'s (element, name) pair succeeds, removes exactly
`c` from the table, sets the element's marker to the join of its
remaining names, erases the name property, and preserves coherence. -/
theorem drain_step (s : St) (c : Inst) (rest : List Inst) (h : Coherent s)
    (hc : s.created = c :: rest) :
    ∃ e, getEl s c.elemId = some e ∧
      downgradeElementInternal s c.elemId c.config.name =
        some { s with
                 elems := setE s.elems c.elemId
                   { e with
                       attrUpgraded := some (jsJoin (namesOf rest c.elemId)),
                       props := e.props.erase c.config.name },
                 created := rest } ∧
      Coherent { s with
                 elems := setE s.elems c.elemId
                   { e with
                       attrUpgraded := some (jsJoin (namesOf rest c.elemId)),
                       props := e.props.erase c.config.name },
                 created := rest } ∧
      c.config.name ∉ e.props.erase c.config.name := by
  have hcmem : c ∈ s.created := by
    rw [hc]
    exact List.mem_cons_self c rest
  obtain ⟨hcname, hccomma, hcsome⟩ := h.2.2.1 c hcmem
  obtain ⟨e, he⟩ : ∃ e, getEl s c.elemId = some e := by
    cases hge : getEl s c.elemId with
    | none => rw [hge] at hcsome; cases hcsome
    | some e => exact ⟨e, rfl⟩
  have helemOk := elemOk_of_getEl s c.elemId e h he
  have hnames : namesOf s.created c.elemId =
      c.config.name :: namesOf rest c.elemId := by
    rw [hc]
    exact namesOf_cons_of_eq c rest c.elemId rfl
  have ha : e.attrUpgraded = some (jsJoin (namesOf s.created c.elemId)) := by
    rcases helemOk.1 with ⟨_, hnil⟩ | hsome
    · rw [hnames] at hnil
      cases hnil
    · exact hsome
  have hsplit : jsSplit (jsJoin (namesOf s.created c.elemId)) =
      namesOf s.created c.elemId :=
    jsSplit_jsJoin _ (by rw [hnames]; simp) (names_comma_free s h c.elemId)
  have hmem : c.config.name ∈ jsSplit (jsJoin (namesOf s.created c.elemId)) := by
    rw [hsplit, hnames]
    exact List.mem_cons_self _ _
  have hfound := downgradeElementInternal_found s c.elemId c.config.name e _ he ha hmem
  have herase : (jsSplit (jsJoin (namesOf s.created c.elemId))).erase c.config.name =
      namesOf rest c.elemId := by
    rw [hsplit, hnames, List.erase_cons_head]
  have hremove : removeFirstInst s.created c.elemId c.config.name = rest := by
    rw [hc]
    exact removeFirstInst_cons_match c rest
  rw [herase, hremove] at hfound
  have hepnodup : e.props.Nodup := helemOk.2.2
  have hnodup : (c.config.name :: namesOf rest c.elemId).Nodup := by
    rw [← hnames]
    exact helemOk.2.1
  refine ⟨e, he, hfound, ?_, ?_⟩
  · refine ⟨?_, ?_, ?_, ?_⟩
    · show ((setE s.elems c.elemId _).map Prod.fst).Nodup
      rw [map_fst_setE]
      exact h.1
    · exact fun r hr => h.2.1 r hr
    · intro c2 hc2
      have hc2mem : c2 ∈ s.created := by
        rw [hc]
        exact List.mem_cons_of_mem c hc2
      obtain ⟨h1, h2, h3⟩ := h.2.2.1 c2 hc2mem
      refine ⟨h1, h2, ?_⟩
      show (lookupE (setE s.elems c.elemId _) c2.elemId).isSome = true
      by_cases hii : c2.elemId = c.elemId
      · rw [hii, lookupE_setE_self, show lookupE s.elems c.elemId = some e from he]
        rfl
      · rw [lookupE_setE_ne s.elems c.elemId c2.elemId _ hii]
        exact h3
    · intro p hp
      have hkeys : ((setE s.elems c.elemId
          { e with
              attrUpgraded := some (jsJoin (namesOf rest c.elemId)),
              props := e.props.erase c.config.name }).map Prod.fst).Nodup := by
        rw [map_fst_setE]
        exact h.1
      have hlook := mem_lookupE _ p.1 p.2 hkeys (by
        show p ∈ setE s.elems c.elemId _
        exact hp)
      by_cases hii : p.1 = c.elemId
      · rw [hii, lookupE_setE_self, show lookupE s.elems c.elemId = some e from he] at hlook
        have hpe : p.2 = { e with
            attrUpgraded := some (jsJoin (namesOf rest c.elemId)),
            props := e.props.erase c.config.name } := by
          simpa using hlook.symm
        rw [hpe, hii]
        refine ⟨Or.inr rfl, List.Nodup.of_cons hnodup, List.Nodup.erase _ hepnodup⟩
      · rw [lookupE_setE_ne s.elems c.elemId p.1 _ hii] at hlook
        have hpmem : (p.1, p.2) ∈ s.elems := lookupE_mem s.elems p.1 p.2 hlook
        have hpok := h.2.2.2 (p.1, p.2) hpmem
        have hsame : namesOf rest p.1 = namesOf s.created p.1 := by
          rw [hc]
          exact (namesOf_cons_ne c rest p.1 (fun heq => hii heq.symm)).symm
        show elemOk rest p.1 p.2
        unfold elemOk
        rw [hsame]
        exact hpok
  · intro hbad
    rw [List.Nodup.mem_erase_iff hepnodup] at hbad
    exact hbad.1 rfl

end Componentize

namespace Componentize

/-- The drain loop run for the full table length of a coherent state
empties the table, preserves coherence, never grows any element's
property set, and removes every drained instance's name property. -/
theorem drain_loop_ok : ∀ (n : Nat) (s : St), Coherent s → s.created.length = n →
    ∃ s2, downgradeAllLoop n s = some s2 ∧ s2.created = [] ∧ Coherent s2 ∧
      s2.regs = s.regs ∧
      (∀ i e, getEl s i = some e → ∃ e2, getEl s2 i = some e2 ∧ e2.props ⊆ e.props) ∧
      (∀ c ∈ s.created, ∀ e2, getEl s2 c.elemId = some e2 →
        c.config.name ∉ e2.props) := by
  intro n
  induction n with
  | zero =>
    intro s h hlen
    have hnil : s.created = [] := List.length_eq_zero.mp hlen
    exact ⟨s, rfl, hnil, h, rfl, fun i e he => ⟨e, he, fun x hx => hx⟩,
      by rw [hnil]; intro c hcm; cases hcm⟩
  | succ n ih =>
    intro s h hlen
    cases hc : s.created with
    | nil =>
      rw [hc] at hlen
      cases hlen
    | cons c rest =>
      obtain ⟨e, he, hdg, hcoh1, hnp⟩ := drain_step s c rest h hc
      have hlen1 : rest.length = n := by
        rw [hc] at hlen
        simpa using hlen
      obtain ⟨s2, hloop2, hnil2, hcoh2, hregs2, hsub2, hlast2⟩ :=
        ih { s with
               elems := setE s.elems c.elemId
                 { e with
                     attrUpgraded := some (jsJoin (namesOf rest c.elemId)),
                     props := e.props.erase c.config.name },
               created := rest } hcoh1 hlen1
      have hloop : downgradeAllLoop (n + 1) s =
          downgradeAllLoop n
            { s with
                elems := setE s.elems c.elemId
                  { e with
                      attrUpgraded := some (jsJoin (namesOf rest c.elemId)),
                      props := e.props.erase c.config.name },
                created := rest } := by
        simp only [downgradeAllLoop, hc, hdg]
      have hstep_get : getEl
          { s with
              elems := setE s.elems c.elemId
                { e with
                    attrUpgraded := some (jsJoin (namesOf rest c.elemId)),
                    props := e.props.erase c.config.name },
              created := rest } c.elemId =
          some { e with
                   attrUpgraded := some (jsJoin (namesOf rest c.elemId)),
                   props := e.props.erase c.config.name } := by
        show lookupE (setE s.elems c.elemId _) c.elemId = _
        rw [lookupE_setE_self, show lookupE s.elems c.elemId = some e from he]
        rfl
      refine ⟨s2, ?_, hnil2, hcoh2, hregs2.trans rfl, ?_, ?_⟩
      · rw [hloop]
        exact hloop2
      · intro i e0 he0
        by_cases hii : i = c.elemId
        · have he0e : e0 = e := by
            rw [hii, he] at he0
            simpa using he0.symm
          obtain ⟨e2, he2, hsub⟩ := hsub2 c.elemId _ hstep_get
          refine ⟨e2, by rw [hii]; exact he2, fun x hx => ?_⟩
          rw [he0e]
          exact List.erase_subset _ _ (hsub hx)
        · have hget1 : getEl
              { s with
                  elems := setE s.elems c.elemId
                    { e with
                        attrUpgraded := some (jsJoin (namesOf rest c.elemId)),
                        props := e.props.erase c.config.name },
                  created := rest } i = some e0 := by
            show lookupE (setE s.elems c.elemId _) i = some e0
            rw [lookupE_setE_ne s.elems c.elemId i _ hii]
            exact he0
          exact hsub2 i e0 hget1
      · intro c2 hc2m e2 he2
        rcases List.mem_cons.mp hc2m with h1 | h1
        · subst h1
          obtain ⟨e3, he3, hsub⟩ := hsub2 c2.elemId _ hstep_get
          have he23 : e2 = e3 := by
            rw [he2] at he3
            simpa using he3
          rw [he23]
          intro hbad
          exact hnp (hsub hbad)
        · exact hlast2 c2 h1 e2 he2

end Componentize

namespace Componentize

theorem upgradeElementInternal_noop_noclass (s : St) (i : Nat) (cfg : ComponentConfig)
    (e : Elem) (he : getEl s i = some e)
    (hcl : ¬ e.classList.contains cfg.cssClass = true) :
    upgradeElementInternal s i cfg = s := by
  unfold upgradeElementInternal
  rw [show getEl s i = some e from he]
  have hcl2 : cfg.cssClass ∉ e.classList := fun hm => hcl (List.elem_iff.mpr hm)
  simp [hcl2]

theorem upgradeElementInternal_noop_noelem (s : St) (i : Nat) (cfg : ComponentConfig)
    (he : getEl s i = none) : upgradeElementInternal s i cfg = s := by
  unfold upgradeElementInternal
  rw [show getEl s i = none from he]

/-- `_upgradeElementInternal` preserves coherence for any definition with
a non-empty comma-free name (every registered definition qualifies). -/
theorem coherent_upgradeElementInternal (s : St) (i : Nat) (cfg : ComponentConfig)
    (h : Coherent s) (hname : cfg.name ≠ "") (hcomma : ',' ∉ cfg.name.toList) :
    Coherent (upgradeElementInternal s i cfg) := by
  cases hge : getEl s i with
  | none =>
    rw [upgradeElementInternal_noop_noelem s i cfg hge]
    exact h
  | some e =>
    by_cases hcl : e.classList.contains cfg.cssClass = true
    · by_cases hup : isUpgradedElement e cfg.name = true
      · rw [upgradeElementInternal_noop_upgraded s i cfg e hge hup]
        exact h
      · have hupf : isUpgradedElement e cfg.name = false := by
          cases hb : isUpgradedElement e cfg.name
          · rfl
          · exact absurd hb hup
        have helemOk := elemOk_of_getEl s i e h hge
        have hclne : e.classList ≠ [] :=
          List.ne_nil_of_mem (List.elem_iff.mp hcl)
        have hgcl : getComponentList s.created i e = namesOf s.created i :=
          getComponentList_eq_namesOf s.created i e hclne helemOk.2.1
        have hnotnames : cfg.name ∉ namesOf s.created i := by
          intro hm
          rcases helemOk.1 with ⟨_, hnil⟩ | hsome
          · rw [hnil] at hm
            cases hm
          · have hjne : jsJoin (namesOf s.created i) ≠ "" :=
              jsJoin_ne_empty_of_mem cfg.name _ hm hname
            have hT : isUpgradedElement e cfg.name = true := by
              show (match e.attrUpgraded with
                    | none => false
                    | some upgradeds => if upgradeds = "" then false
                        else substrS cfg.name upgradeds) = true
              rw [hsome]
              show (if jsJoin (namesOf s.created i) = "" then false
                    else substrS cfg.name (jsJoin (namesOf s.created i))) = true
              rw [if_neg hjne]
              exact substrS_of_mem cfg.name _ hm
            rw [hT] at hupf
            cases hupf
        have hrun := upgradeElementInternal_run s i cfg e hge hcl hupf
        rw [hgcl] at hrun
        rw [hrun]
        have hnames2 : namesOf (s.created ++ [Inst.mk i cfg]) i =
            namesOf s.created i ++ [cfg.name] := by
          rw [namesOf_append]
          simp [namesOf]
        refine ⟨?_, fun r hr => h.2.1 r hr, ?_, ?_⟩
        · show ((setE s.elems i _).map Prod.fst).Nodup
          rw [map_fst_setE]
          exact h.1
        · intro c2 hc2
          rcases List.mem_append.mp hc2 with h1 | h1
          · obtain ⟨h1a, h1b, h1c⟩ := h.2.2.1 c2 h1
            refine ⟨h1a, h1b, ?_⟩
            show (lookupE (setE s.elems i _) c2.elemId).isSome = true
            by_cases hii : c2.elemId = i
            · rw [hii, lookupE_setE_self, show lookupE s.elems i = some e from hge]
              rfl
            · rw [lookupE_setE_ne s.elems i c2.elemId _ hii]
              exact h1c
          · have hc2e : c2 = Inst.mk i cfg := by simpa using h1
            subst hc2e
            refine ⟨hname, hcomma, ?_⟩
            show (lookupE (setE s.elems i _) (Inst.mk i cfg).elemId).isSome = true
            rw [show (Inst.mk i cfg).elemId = i from rfl,
                lookupE_setE_self, show lookupE s.elems i = some e from hge]
            rfl
        · intro p hp
          have hkeys : ((setE s.elems i
              { e with
                  props := insertProp e.props cfg.name,
                  attrUpgraded :=
                    some (jsJoin (namesOf s.created i ++ [cfg.name])) }).map
                Prod.fst).Nodup := by
            rw [map_fst_setE]
            exact h.1
          have hlook := mem_lookupE _ p.1 p.2 hkeys hp
          by_cases hii : p.1 = i
          · rw [hii, lookupE_setE_self,
                show lookupE s.elems i = some e from hge] at hlook
            have hpe : p.2 = { e with
                props := insertProp e.props cfg.name,
                attrUpgraded := some (jsJoin (namesOf s.created i ++ [cfg.name])) } := by
              simpa using hlook.symm
            rw [hpe, hii]
            refine ⟨Or.inr (by rw [hnames2]), ?_,
              insertProp_nodup e.props cfg.name helemOk.2.2⟩
            rw [hnames2, List.nodup_append]
            refine ⟨helemOk.2.1, List.nodup_singleton _, ?_⟩
            intro a ha hb
            rw [List.mem_singleton] at hb
            subst hb
            exact hnotnames ha
          · rw [lookupE_setE_ne s.elems i p.1 _ hii] at hlook
            have hpmem := lookupE_mem s.elems p.1 p.2 hlook
            have hpok := h.2.2.2 (p.1, p.2) hpmem
            have hsame : namesOf (s.created ++ [Inst.mk i cfg]) p.1 =
                namesOf s.created p.1 := by
              rw [namesOf_append,
                  namesOf_cons_ne (Inst.mk i cfg) [] p.1 (fun he2 => hii he2.symm)]
              simp [namesOf]
            show elemOk (s.created ++ [Inst.mk i cfg]) p.1 p.2
            unfold elemOk
            rw [hsame]
            exact hpok
    · rw [upgradeElementInternal_noop_noclass s i cfg e hge hcl]
      exact h

/-- The classList `forEach` of `_upgradeElement` preserves coherence. -/
theorem coherent_upgradeClassListFold (s : St) (i : Nat) (classes : List String)
    (h : Coherent s) : Coherent (upgradeClassListFold s i classes) := by
  induction classes generalizing s with
  | nil => exact h
  | cons cl rest ih =>
    show Coherent (upgradeClassListFold
      (match getRegisteredByClass s.regs cl with
       | some r => upgradeElementInternal s i r
       | none => s) i rest)
    cases hr : getRegisteredByClass s.regs cl with
    | none =>
      exact ih s h
    | some r =>
      obtain ⟨hrm, _⟩ := getRegisteredByClass_eq_some s.regs cl r hr
      obtain ⟨hr1, hr2⟩ := h.2.1 r hrm
      exact ih _ (coherent_upgradeElementInternal s i r h hr1 hr2)

/-- The public `upgradeElement` preserves coherence. -/
theorem coherent_upgradeElement (s : St) (v : DomRef) (optCss : Option String)
    (h : Coherent s) : Coherent (upgradeElement s v optCss) := by
  cases v with
  | el i =>
    cases hge : getEl s i with
    | none =>
      rw [show upgradeElement s (DomRef.el i) optCss = s by
        simp only [upgradeElement, hge]]
      exact h
    | some e =>
      cases optCss with
      | none =>
        rw [show upgradeElement s (DomRef.el i) none =
            upgradeClassListFold s i e.classList by
          simp only [upgradeElement, hge]]
        exact coherent_upgradeClassListFold s i e.classList h
      | some css =>
        by_cases hcss : css = ""
        · subst hcss
          rw [show upgradeElement s (DomRef.el i) (some "") =
              upgradeClassListFold s i e.classList by
            simp only [upgradeElement, hge]
            simp]
          exact coherent_upgradeClassListFold s i e.classList h
        · cases hr : getRegisteredByClass s.regs css with
          | none =>
            rw [show upgradeElement s (DomRef.el i) (some css) = s by
              simp only [upgradeElement, hge]
              rw [if_neg hcss, hr]]
            exact h
          | some r =>
            rw [show upgradeElement s (DomRef.el i) (some css) =
                upgradeElementInternal s i r by
              simp only [upgradeElement, hge]
              rw [if_neg hcss, hr]]
            obtain ⟨hrm, _⟩ := getRegisteredByClass_eq_some s.regs css r hr
            obtain ⟨h1, h2⟩ := h.2.1 r hrm
            exact coherent_upgradeElementInternal s i r h h1 h2
  | nullRef => exact h
  | undefRef => exact h
  | numRef n => exact h
  | objRef => exact h

/-- Any sequence of public `upgradeElement` calls preserves coherence. -/
theorem coherent_upgradeOps (s0 : St) (ops : List (DomRef × Option String))
    (h0 : Coherent s0) :
    Coherent (ops.foldl (fun t op => upgradeElement t op.1 op.2) s0) := by
  induction ops generalizing s0 with
  | nil => exact h0
  | cons op rest ih =>
    rw [List.foldl_cons]
    exact ih _ (coherent_upgradeElement s0 op.1 op.2 h0)

instance (created : List Inst) (i : Nat) (e : Elem) : Decidable (elemOk created i e) := by
  unfold elemOk
  infer_instance

instance (s : St) : Decidable (Coherent s) := by
  unfold Coherent
  infer_instance

/-- C9: start from any coherent state (in particular a fresh page with
no instances), apply any sequence of public element upgrades, and call
`downgradeAll`: the instance table ends empty, every element's marker
attribute ends absent or equal to the empty string, and every upgraded
instance's name property has been deleted from its element. -/
theorem C9_downgradeAll_drains (s0 : St) (ops : List (DomRef × Option String))
    (h0 : Coherent s0) :
    ∃ s2, downgradeAll (ops.foldl (fun t op => upgradeElement t op.1 op.2) s0) =
        some s2 ∧
      s2.created = [] ∧
      (∀ p ∈ s2.elems, p.2.attrUpgraded = none ∨ p.2.attrUpgraded = some "") ∧
      (∀ c ∈ (ops.foldl (fun t op => upgradeElement t op.1 op.2) s0).created,
        ∀ e2, getEl s2 c.elemId = some e2 → c.config.name ∉ e2.props) := by
  have h := coherent_upgradeOps s0 ops h0
  obtain ⟨s2, hloop, hnil, hcoh2, _, _, hlast⟩ :=
    drain_loop_ok (ops.foldl (fun t op => upgradeElement t op.1 op.2) s0).created.length
      _ h rfl
  refine ⟨s2, hloop, hnil, ?_, hlast⟩
  intro p hp
  have hok := hcoh2.2.2.2 p hp
  rcases hok.1 with ⟨h1, _⟩ | h1
  · exact Or.inl h1
  · right
    rw [hnil] at h1
    exact h1

def w9St : St :=
  ⟨[⟨"A", "a", 1⟩, ⟨"B", "b", 2⟩],
   [(0, ⟨["a", "b"], none, []⟩), (1, ⟨["a"], none, []⟩)], []⟩

def w9Ops : List (DomRef × Option String) :=
  [(DomRef.el 0, none), (DomRef.el 1, none)]

/-- Witness for C9: three instances over two elements and two
definitions are drained completely. -/
theorem C9_downgradeAll_drains_witness :
    ∃ s2, downgradeAll (w9Ops.foldl (fun t op => upgradeElement t op.1 op.2) w9St) =
        some s2 ∧
      s2.created = [] ∧
      (∀ p ∈ s2.elems, p.2.attrUpgraded = none ∨ p.2.attrUpgraded = some "") ∧
      (∀ c ∈ (w9Ops.foldl (fun t op => upgradeElement t op.1 op.2) w9St).created,
        ∀ e2, getEl s2 c.elemId = some e2 → c.config.name ∉ e2.props) :=
  C9_downgradeAll_drains w9St w9Ops (by decide)

end Componentize
